import Mathlib

/-!
Verification development for the aws_monitor repository.

Shallow embedding conventions:
- Python dicts are association lists with string keys; assignment keeps the
  position of an existing key and appends new keys (matching dict insertion
  order), so keys stay unique.
- Python floats are modelled as rationals; round(x, 2) is modelled as
  round-half-even at two fractional digits.
- A Python function that may raise is modelled as a function into Except,
  with the message of str(e) as the error payload.
-/

set_option maxHeartbeats 1000000
set_option maxRecDepth 10000

namespace AwsMonitor

/-- A Python value as it appears in the result dictionaries of this code base. -/
inductive PyVal where
  | str : String → PyVal
  | num : Rat → PyVal
  | vlist : List PyVal → PyVal
  | vdict : List (String × PyVal) → PyVal
deriving Repr

/-- A Python dict with string keys. -/
abbrev PyDict := List (String × PyVal)

/-- Keys of a dict, in insertion order. -/
def keys {α : Type} (d : List (String × α)) : List String := d.map (·.1)

/-- Membership test for a key, as in the Python expression with the in operator. -/
def hasKey {α : Type} : List (String × α) → String → Bool
  | [], _ => false
  | (k', _) :: rest, k => if k' = k then true else hasKey rest k

/-- Lookup of a key: models d.get(k) returning None when absent. -/
def lookup? {α : Type} : List (String × α) → String → Option α
  | [], _ => none
  | (k', v) :: rest, k => if k' = k then some v else lookup? rest k

/-- Dict assignment d[k] = v: overwrite in place when the key exists,
    append at the end otherwise (Python dict insertion-order semantics). -/
def upsert {α : Type} : List (String × α) → String → α → List (String × α)
  | [], k, v => [(k, v)]
  | (k', v') :: rest, k, v =>
    if k' = k then (k, v) :: rest else (k', v') :: upsert rest k v

theorem keys_cons {α : Type} (rest : List (String × α)) (pk : String) (pv : α) :
    keys ((pk, pv) :: rest) = pk :: keys rest := rfl

theorem upsert_cons_pos {α : Type} (rest : List (String × α)) (pk k : String) (pv v : α)
    (h : pk = k) : upsert ((pk, pv) :: rest) k v = (k, v) :: rest := by
  simp [upsert, h]

theorem upsert_cons_neg {α : Type} (rest : List (String × α)) (pk k : String) (pv v : α)
    (h : pk ≠ k) : upsert ((pk, pv) :: rest) k v = (pk, pv) :: upsert rest k v := by
  simp [upsert, h]

theorem lookup?_cons_pos {α : Type} (rest : List (String × α)) (pk k : String) (pv : α)
    (h : pk = k) : lookup? ((pk, pv) :: rest) k = some pv := by
  simp [lookup?, h]

theorem lookup?_cons_neg {α : Type} (rest : List (String × α)) (pk k : String) (pv : α)
    (h : pk ≠ k) : lookup? ((pk, pv) :: rest) k = lookup? rest k := by
  simp [lookup?, h]

theorem hasKey_cons_pos {α : Type} (rest : List (String × α)) (pk k : String) (pv : α)
    (h : pk = k) : hasKey ((pk, pv) :: rest) k = true := by
  simp [hasKey, h]

theorem hasKey_cons_neg {α : Type} (rest : List (String × α)) (pk k : String) (pv : α)
    (h : pk ≠ k) : hasKey ((pk, pv) :: rest) k = hasKey rest k := by
  simp [hasKey, h]

theorem keys_upsert {α : Type} (d : List (String × α)) (k : String) (v : α) (k' : String) :
    k' ∈ keys (upsert d k v) ↔ k' = k ∨ k' ∈ keys d := by
  induction d with
  | nil => simp [upsert, keys]
  | cons p rest ih =>
    obtain ⟨pk, pv⟩ := p
    by_cases h : pk = k
    · rw [upsert_cons_pos rest pk k pv v h, keys_cons, keys_cons, List.mem_cons, List.mem_cons, h]
      tauto
    · rw [upsert_cons_neg rest pk k pv v h, keys_cons, keys_cons, List.mem_cons, List.mem_cons, ih]
      tauto

theorem nodup_keys_upsert {α : Type} (d : List (String × α)) (k : String) (v : α)
    (h : (keys d).Nodup) : (keys (upsert d k v)).Nodup := by
  induction d with
  | nil => simp [upsert, keys]
  | cons p rest ih =>
    obtain ⟨pk, pv⟩ := p
    rw [keys_cons, List.nodup_cons] at h
    by_cases hk : pk = k
    · rw [upsert_cons_pos rest pk k pv v hk, keys_cons, List.nodup_cons]
      rw [hk] at h
      exact h
    · rw [upsert_cons_neg rest pk k pv v hk, keys_cons, List.nodup_cons]
      constructor
      · intro hmem
        rcases (keys_upsert rest k v pk).mp hmem with h1 | h1
        · exact hk h1
        · exact h.1 h1
      · exact ih h.2

theorem lookup?_upsert_self {α : Type} (d : List (String × α)) (k : String) (v : α) :
    lookup? (upsert d k v) k = some v := by
  induction d with
  | nil => simp [upsert, lookup?]
  | cons p rest ih =>
    obtain ⟨pk, pv⟩ := p
    by_cases h : pk = k
    · rw [upsert_cons_pos rest pk k pv v h, lookup?_cons_pos rest k k v rfl]
    · rw [upsert_cons_neg rest pk k pv v h, lookup?_cons_neg _ pk k pv h, ih]

theorem lookup?_upsert_ne {α : Type} (d : List (String × α)) (k : String) (v : α)
    (k' : String) (h : k' ≠ k) : lookup? (upsert d k v) k' = lookup? d k' := by
  induction d with
  | nil =>
    show lookup? [(k, v)] k' = lookup? [] k'
    rw [lookup?_cons_neg [] k k' v (Ne.symm h)]
  | cons p rest ih =>
    obtain ⟨pk, pv⟩ := p
    by_cases hk : pk = k
    · rw [upsert_cons_pos rest pk k pv v hk,
        lookup?_cons_neg rest k k' v (Ne.symm h)]
      by_cases hk' : pk = k'
      · exact absurd (hk'.symm.trans hk) h
      · rw [lookup?_cons_neg rest pk k' pv hk']
    · by_cases hk' : pk = k'
      · rw [upsert_cons_neg rest pk k pv v hk, lookup?_cons_pos _ pk k' pv hk',
          lookup?_cons_pos rest pk k' pv hk']
      · rw [upsert_cons_neg rest pk k pv v hk, lookup?_cons_neg _ pk k' pv hk',
          lookup?_cons_neg rest pk k' pv hk', ih]

theorem lookup?_eq_some_mem_keys {α : Type} (d : List (String × α)) (k : String) (v : α)
    (h : lookup? d k = some v) : k ∈ keys d := by
  induction d with
  | nil => simp [lookup?] at h
  | cons p rest ih =>
    obtain ⟨pk, pv⟩ := p
    rw [keys_cons, List.mem_cons]
    by_cases hk : pk = k
    · exact Or.inl hk.symm
    · rw [lookup?_cons_neg rest pk k pv hk] at h
      exact Or.inr (ih h)

theorem lookup?_eq_none_of_not_mem_keys {α : Type} (d : List (String × α)) (k : String)
    (h : k ∉ keys d) : lookup? d k = none := by
  induction d with
  | nil => simp [lookup?]
  | cons p rest ih =>
    obtain ⟨pk, pv⟩ := p
    rw [keys_cons, List.mem_cons] at h
    push_neg at h
    rw [lookup?_cons_neg rest pk k pv (fun he => h.1 he.symm)]
    exact ih h.2

theorem hasKey_iff_mem_keys {α : Type} (d : List (String × α)) (k : String) :
    hasKey d k = true ↔ k ∈ keys d := by
  induction d with
  | nil => simp [hasKey, keys]
  | cons p rest ih =>
    obtain ⟨pk, pv⟩ := p
    rw [keys_cons, List.mem_cons]
    by_cases hk : pk = k
    · rw [hasKey_cons_pos rest pk k pv hk]
      simp [hk.symm]
    · rw [hasKey_cons_neg rest pk k pv hk, ih]
      have : ¬k = pk := fun he => hk he.symm
      tauto

/-! ## ParallelFetcher (src/services/parallel_fetcher.py)

fetch_from_regions submits one task per region to a ThreadPoolExecutor and
collects the futures with as_completed.  A task is a future holding the
outcome of fetch_function(region); its wall-clock duration decides its
position in the as_completed order.  The fetch function either returns a
dict or raises with a message. -/

/-- Outcome of one call of the Python fetch function for a region:
    ok with the returned dict, or error with str(e) of the raised exception. -/
abbrev FetchOutcome := Except String PyDict

/-- A submitted task: executor.submit(fetch_function, region).
    duration is the wall-clock time the call takes; outcome is what the call
    returns or raises once it has run. -/
structure Future where
  region : String
  duration : Nat
  outcome : FetchOutcome

/-- The dict stored for a failed region:
    the literal with error and region keys built in the except branches. -/
def errorDict (msg region : String) : PyDict :=
  [("error", PyVal.str msg), ("region", PyVal.str region)]

/-- Insertion into a list kept sorted by increasing duration (completion time). -/
def insertByDuration (f : Future) : List Future → List Future
  | [] => [f]
  | g :: gs => if f.duration < g.duration then f :: g :: gs else g :: insertByDuration f gs

/-- as_completed(future_to_region): yields each future once it has completed,
    in completion order.  Modelled as a sort of the submitted futures by their
    durations; every yielded future is done. -/
def as_completed (fs : List Future) : List Future :=
  fs.foldr insertByDuration []

theorem mem_insertByDuration (f g : Future) (l : List Future) :
    g ∈ insertByDuration f l ↔ g = f ∨ g ∈ l := by
  induction l with
  | nil => simp [insertByDuration]
  | cons x xs ih =>
    by_cases h : f.duration < x.duration
    · simp only [insertByDuration, if_pos h, List.mem_cons]
    · simp only [insertByDuration, if_neg h, List.mem_cons, ih]
      tauto

theorem mem_as_completed (fs : List Future) (g : Future) :
    g ∈ as_completed fs ↔ g ∈ fs := by
  induction fs with
  | nil => simp [as_completed]
  | cons f rest ih =>
    unfold as_completed at ih ⊢
    rw [List.foldr_cons, mem_insertByDuration, ih]
    exact (List.mem_cons).symm

/-- future.result(timeout=timeout) wrapped in the try/except of the collection
    loop.  done records whether the future has completed when result is
    called; as_completed only yields completed futures, so done is always true
    there and the TimeoutError branch below is unreachable from
    fetch_from_regions. -/
def future_result (timeout : Nat) (done : Bool) (f : Future) : PyDict :=
  if done then
    match f.outcome with
    | .ok d => d
    | .error msg => errorDict msg f.region
  else
    errorDict ("Timeout after " ++ toString timeout ++ "s") f.region

/-- The tasks submitted to the executor: one per listed region, none when the
    region list is empty (the function returns before creating the executor). -/
def submitted_futures (regions : List String) (fetch : String → FetchOutcome)
    (durations : String → Nat) : List Future :=
  if regions.isEmpty then []
  else regions.map (fun r => ⟨r, durations r, fetch r⟩)

theorem submitted_futures_eq (regions : List String) (fetch : String → FetchOutcome)
    (durations : String → Nat) :
    submitted_futures regions fetch durations
      = regions.map (fun r => ⟨r, durations r, fetch r⟩) := by
  cases regions <;> simp [submitted_futures]

/-- ParallelFetcher.fetch_from_regions: submit one task per region, then for
    each future yielded by as_completed store the task outcome (or the error
    dict built in the except branches) under results[region]. -/
def fetch_from_regions (regions : List String) (fetch : String → FetchOutcome)
    (durations : String → Nat) (timeout : Nat) : List (String × PyDict) :=
  (as_completed (submitted_futures regions fetch durations)).foldl
    (fun results f => upsert results f.region (future_result timeout true f)) []

/-- Value recorded for a region by fetch_from_regions: the returned dict on a
    normal return, the error dict on a raise. -/
def region_value (fetch : String → FetchOutcome) (r : String) : PyDict :=
  match fetch r with
  | .ok d => d
  | .error msg => errorDict msg r

theorem future_result_done (timeout : Nat) (fetch : String → FetchOutcome)
    (durations : String → Nat) (r : String) :
    future_result timeout true ⟨r, durations r, fetch r⟩ = region_value fetch r := by
  cases h : fetch r <;> simp [future_result, region_value, h]

theorem lookup?_foldl_upsert (timeout : Nat) (fs : List Future)
    (init : List (String × PyDict)) (r : String) (v : PyDict)
    (hv : ∀ f ∈ fs, f.region = r → future_result timeout true f = v)
    (hbase : r ∈ fs.map Future.region ∨ lookup? init r = some v) :
    lookup? (fs.foldl
      (fun results f => upsert results f.region (future_result timeout true f)) init) r
      = some v := by
  induction fs generalizing init with
  | nil =>
    rcases hbase with h | h
    · simp at h
    · simpa using h
  | cons f rest ih =>
    simp only [List.foldl_cons]
    by_cases hr : f.region = r
    · apply ih
      · intro g hg hgr
        exact hv g (List.mem_cons_of_mem _ hg) hgr
      · right
        rw [← hr, lookup?_upsert_self]
        exact congrArg some (hv f (List.mem_cons_self _ _) hr)
    · apply ih
      · intro g hg hgr
        exact hv g (List.mem_cons_of_mem _ hg) hgr
      · rcases hbase with h | h
        · rw [List.map_cons, List.mem_cons] at h
          rcases h with h | h
          · exact absurd h.symm hr
          · exact Or.inl h
        · refine Or.inr ?_
          rw [lookup?_upsert_ne _ _ _ _ (fun he => hr he.symm)]
          exact h

theorem mem_keys_foldl_upsert (timeout : Nat) (fs : List Future)
    (init : List (String × PyDict)) (r : String) :
    r ∈ keys (fs.foldl
      (fun results f => upsert results f.region (future_result timeout true f)) init)
      ↔ r ∈ keys init ∨ r ∈ fs.map Future.region := by
  induction fs generalizing init with
  | nil => simp
  | cons f rest ih =>
    simp only [List.foldl_cons]
    rw [ih, keys_upsert]
    simp only [List.map_cons, List.mem_cons]
    tauto

theorem nodup_keys_foldl_upsert (timeout : Nat) (fs : List Future)
    (init : List (String × PyDict)) (h : (keys init).Nodup) :
    (keys (fs.foldl
      (fun results f => upsert results f.region (future_result timeout true f)) init)).Nodup := by
  induction fs generalizing init with
  | nil => simpa using h
  | cons f rest ih =>
    simp only [List.foldl_cons]
    exact ih _ (nodup_keys_upsert _ _ _ h)

theorem lookup?_fetch_from_regions (regions : List String) (fetch : String → FetchOutcome)
    (durations : String → Nat) (timeout : Nat) (r : String) (hr : r ∈ regions) :
    lookup? (fetch_from_regions regions fetch durations timeout) r
      = some (region_value fetch r) := by
  unfold fetch_from_regions
  apply lookup?_foldl_upsert
  · intro f hf hfr
    rw [mem_as_completed, submitted_futures_eq] at hf
    obtain ⟨r', hr', hfeq⟩ := List.mem_map.mp hf
    subst hfeq
    have hrr : r' = r := hfr
    subst hrr
    exact future_result_done timeout fetch durations r'
  · refine Or.inl (List.mem_map.mpr ⟨⟨r, durations r, fetch r⟩, ?_, rfl⟩)
    rw [mem_as_completed, submitted_futures_eq]
    exact List.mem_map.mpr ⟨r, hr, rfl⟩

theorem mem_keys_fetch_from_regions (regions : List String) (fetch : String → FetchOutcome)
    (durations : String → Nat) (timeout : Nat) (r : String) :
    r ∈ keys (fetch_from_regions regions fetch durations timeout) ↔ r ∈ regions := by
  unfold fetch_from_regions
  rw [mem_keys_foldl_upsert]
  simp only [keys, List.map_nil, List.not_mem_nil, false_or]
  constructor
  · intro h
    obtain ⟨f, hf, hfr⟩ := List.mem_map.mp h
    rw [mem_as_completed, submitted_futures_eq] at hf
    obtain ⟨r', hr', hfeq⟩ := List.mem_map.mp hf
    subst hfeq
    have hrr : r' = r := hfr
    subst hrr
    exact hr'
  · intro h
    refine List.mem_map.mpr ⟨⟨r, durations r, fetch r⟩, ?_, rfl⟩
    rw [mem_as_completed, submitted_futures_eq]
    exact List.mem_map.mpr ⟨r, h, rfl⟩

theorem nodup_keys_fetch_from_regions (regions : List String) (fetch : String → FetchOutcome)
    (durations : String → Nat) (timeout : Nat) :
    (keys (fetch_from_regions regions fetch durations timeout)).Nodup := by
  unfold fetch_from_regions
  exact nodup_keys_foldl_upsert _ _ _ (by simp [keys])

/-- C1: Failure isolation.  If the fetch function raises for region X with some
    message and returns normally for every other region, then X is recorded as
    the error dict carrying that message, the error is data (the embedding is a
    total function, nothing propagates), and every other listed region maps to
    exactly the dict the fetch function returned for it, whatever the task
    durations. -/
theorem fetch_from_regions_isolation (regions : List String) (fetch : String → FetchOutcome)
    (durations : String → Nat) (timeout : Nat) (X msg : String)
    (hX : fetch X = .error msg)
    (_hok : ∀ r, r ≠ X → ∃ d, fetch r = .ok d) :
    (X ∈ regions →
      lookup? (fetch_from_regions regions fetch durations timeout) X
        = some (errorDict msg X)) ∧
    (∀ r ∈ regions, r ≠ X → ∀ d, fetch r = .ok d →
      lookup? (fetch_from_regions regions fetch durations timeout) r = some d) := by
  constructor
  · intro hmem
    rw [lookup?_fetch_from_regions regions fetch durations timeout X hmem]
    simp [region_value, hX]
  · intro r hr hne d hd
    rw [lookup?_fetch_from_regions regions fetch durations timeout r hr]
    simp [region_value, hd]

/-- Concrete fetch function used by witnesses: raises for region r2, returns a
    one-key dict for every other region. -/
def wfetch : String → FetchOutcome := fun r =>
  if r = "r2" then .error "boom" else .ok [("instances", PyVal.vlist [])]

theorem fetch_from_regions_isolation_witness :
    lookup? (fetch_from_regions ["r1", "r2"] wfetch (fun _ => 1) 30) "r2"
        = some (errorDict "boom" "r2") ∧
    lookup? (fetch_from_regions ["r1", "r2"] wfetch (fun _ => 1) 30) "r1"
        = some [("instances", PyVal.vlist [])] := by
  have h := fetch_from_regions_isolation ["r1", "r2"] wfetch (fun _ => 1) 30 "r2" "boom"
    (by simp [wfetch]) (fun r hr => ⟨[("instances", PyVal.vlist [])], by simp [wfetch, hr]⟩)
  exact ⟨h.1 (by simp), h.2 "r1" (by simp) (by simp) _ (by simp [wfetch])⟩

/-- C2: Totality of the fan-out.  The key set of the returned mapping is
    exactly the set of listed regions (each key present once), and for an
    empty region list the function returns the empty mapping having submitted
    no task, i.e. without invoking the fetch function. -/
theorem fetch_from_regions_totality (regions : List String) (fetch : String → FetchOutcome)
    (durations : String → Nat) (timeout : Nat) :
    (∀ r, r ∈ keys (fetch_from_regions regions fetch durations timeout) ↔ r ∈ regions) ∧
    (keys (fetch_from_regions regions fetch durations timeout)).Nodup ∧
    fetch_from_regions [] fetch durations timeout = [] ∧
    submitted_futures [] fetch durations = [] := by
  exact ⟨fun r => mem_keys_fetch_from_regions regions fetch durations timeout r,
    nodup_keys_fetch_from_regions regions fetch durations timeout, rfl, rfl⟩

/-- C4 (evidence of the code bug): the timeout branch of the collection loop is
    unreachable.  as_completed yields a future only after it has completed, so
    future.result(timeout) is always called on a done future: the recorded
    mapping is independent of how long each task ran, and a fetch that takes
    longer than the timeout is still recorded with its ordinary outcome
    instead of the claimed Timeout failure entry. -/
theorem per_task_timeout_never_fires :
    (∀ (regions : List String) (fetch : String → FetchOutcome)
        (durA durB : String → Nat) (timeout : Nat) (r : String),
      lookup? (fetch_from_regions regions fetch durA timeout) r
        = lookup? (fetch_from_regions regions fetch durB timeout) r) ∧
    fetch_from_regions ["us-east-1"] (fun _ => .ok [("instances", PyVal.vlist [])])
        (fun _ => 1000) 30
      = [("us-east-1", [("instances", PyVal.vlist [])])] ∧
    hasKey [("instances", PyVal.vlist [])] "error" = false := by
  refine ⟨fun regions fetch durA durB timeout r => ?_, ?_, rfl⟩
  · by_cases hr : r ∈ regions
    · rw [lookup?_fetch_from_regions regions fetch durA timeout r hr,
        lookup?_fetch_from_regions regions fetch durB timeout r hr]
    · rw [lookup?_eq_none_of_not_mem_keys _ _
          (fun hm => hr ((mem_keys_fetch_from_regions regions fetch durA timeout r).mp hm)),
        lookup?_eq_none_of_not_mem_keys _ _
          (fun hm => hr ((mem_keys_fetch_from_regions regions fetch durB timeout r).mp hm))]
  · rfl

/-! ## ParallelFetcher.aggregate_results (src/services/parallel_fetcher.py)
    and the EC2 aggregation loop of ResourceAggregator.fetch_ec2_resources
    (src/services/resource_aggregator.py). -/

/-- Extending a combined list with a dict value: the item-list keys of this
    code base always hold lists; other shapes fall outside the modelled
    fragment and contribute nothing. -/
def asList : Option PyVal → List PyVal
  | some (PyVal.vlist l) => l
  | _ => []

/-- result.get(key, default dict): a dict value or the empty dict. -/
def asDict : Option PyVal → PyDict
  | some (PyVal.vdict d) => d
  | _ => []

/-- summary.get(key, 0): a numeric value or zero. -/
def asNum : Option PyVal → Rat
  | some (PyVal.num q) => q
  | _ => 0

/-- The elif chain extracting a result's item list: instances, buckets,
    databases, items, in that order; none present contributes nothing. -/
def extract_items (d : PyDict) : List PyVal :=
  if hasKey d "instances" then asList (lookup? d "instances")
  else if hasKey d "buckets" then asList (lookup? d "buckets")
  else if hasKey d "databases" then asList (lookup? d "databases")
  else if hasKey d "items" then asList (lookup? d "items")
  else []

structure Aggregate where
  items : List PyVal
  total_count : Nat
  successful_regions : List String
  failed_regions : List String
  errors : List (String × PyVal)

/-- The loop of aggregate_results over the region→result mapping, in dict
    order: an entry whose dict contains the error key goes to the error list
    as (region, value of the error key); any other entry appends its region to
    the successful list and its extracted items to the combined item list. -/
def agg_loop : List (String × PyDict) → List PyVal × List String × List (String × PyVal)
  | [] => ([], [], [])
  | (region, result) :: rest =>
    let acc := agg_loop rest
    if hasKey result "error" then
      (acc.1, acc.2.1, (region, (lookup? result "error").getD (PyVal.str "")) :: acc.2.2)
    else
      (extract_items result ++ acc.1, region :: acc.2.1, acc.2.2)

/-- ParallelFetcher.aggregate_results. -/
def aggregate_results (region_results : List (String × PyDict)) : Aggregate :=
  let acc := agg_loop region_results
  { items := acc.1
    total_count := acc.1.length
    successful_regions := acc.2.1
    failed_regions := acc.2.2.map (·.1)
    errors := acc.2.2 }

theorem succ_subset_keys (l : List (String × PyDict)) (r : String)
    (h : r ∈ (agg_loop l).2.1) : r ∈ keys l := by
  induction l with
  | nil => simp [agg_loop] at h
  | cons p rest ih =>
    obtain ⟨pk, pd⟩ := p
    rw [keys_cons, List.mem_cons]
    cases hk : hasKey pd "error" with
    | true =>
      simp only [agg_loop, hk, if_true] at h
      exact Or.inr (ih h)
    | false =>
      simp only [agg_loop, hk, if_false, Bool.false_eq_true, List.mem_cons] at h
      rcases h with h | h
      · exact Or.inl h
      · exact Or.inr (ih h)

theorem failed_subset_keys (l : List (String × PyDict)) (r : String)
    (h : r ∈ (agg_loop l).2.2.map (·.1)) : r ∈ keys l := by
  induction l with
  | nil => simp [agg_loop] at h
  | cons p rest ih =>
    obtain ⟨pk, pd⟩ := p
    rw [keys_cons, List.mem_cons]
    cases hk : hasKey pd "error" with
    | true =>
      simp only [agg_loop, hk, if_true, List.map_cons, List.mem_cons] at h
      rcases h with h | h
      · exact Or.inl h
      · exact Or.inr (ih h)
    | false =>
      simp only [agg_loop, hk, if_false, Bool.false_eq_true] at h
      exact Or.inr (ih h)

theorem agg_loop_length (l : List (String × PyDict)) :
    (agg_loop l).2.1.length + (agg_loop l).2.2.length = l.length := by
  induction l with
  | nil => simp [agg_loop]
  | cons p rest ih =>
    obtain ⟨pk, pd⟩ := p
    cases hk : hasKey pd "error" with
    | true =>
      simp only [agg_loop, hk, if_true, List.length_cons]
      omega
    | false =>
      simp only [agg_loop, hk, if_false, Bool.false_eq_true, List.length_cons]
      omega

theorem agg_classification (l : List (String × PyDict)) (hnd : (keys l).Nodup)
    (r : String) (d : PyDict) (hmem : (r, d) ∈ l) :
    (hasKey d "error" = true →
      r ∈ (agg_loop l).2.2.map (·.1) ∧ r ∉ (agg_loop l).2.1) ∧
    (hasKey d "error" = false →
      r ∈ (agg_loop l).2.1 ∧ r ∉ (agg_loop l).2.2.map (·.1)) := by
  induction l with
  | nil => simp at hmem
  | cons p rest ih =>
    obtain ⟨pk, pd⟩ := p
    rw [keys_cons, List.nodup_cons] at hnd
    rcases List.mem_cons.mp hmem with he | hm
    · obtain ⟨hr, hd⟩ := Prod.mk.injEq .. ▸ he
      subst hr
      subst hd
      constructor
      · intro hk
        simp only [agg_loop, hk, if_true, List.map_cons, List.mem_cons]
        exact ⟨Or.inl trivial, fun hc => hnd.1 (succ_subset_keys rest r hc)⟩
      · intro hk
        simp only [agg_loop, hk, if_false, Bool.false_eq_true, List.mem_cons]
        exact ⟨Or.inl trivial, fun hc => hnd.1 (failed_subset_keys rest r hc)⟩
    · have hrk : r ∈ keys rest :=
        List.mem_map.mpr ⟨(r, d), hm, rfl⟩
      have hne : r ≠ pk := fun he => hnd.1 (he ▸ hrk)
      have ihm := ih hnd.2 hm
      cases hk : hasKey pd "error" with
      | true =>
        simp only [agg_loop, hk, if_true, List.map_cons, List.mem_cons]
        refine ⟨fun h => ?_, fun h => ?_⟩
        · exact ⟨Or.inr (ihm.1 h).1, (ihm.1 h).2⟩
        · refine ⟨(ihm.2 h).1, fun hc => ?_⟩
          rcases hc with hc | hc
          · exact hne hc
          · exact (ihm.2 h).2 hc
      | false =>
        simp only [agg_loop, hk, if_false, Bool.false_eq_true, List.mem_cons]
        refine ⟨fun h => ?_, fun h => ?_⟩
        · refine ⟨(ihm.1 h).1, fun hc => ?_⟩
          rcases hc with hc | hc
          · exact hne hc
          · exact (ihm.1 h).2 hc
        · exact ⟨Or.inr (ihm.2 h).1, (ihm.2 h).2⟩

structure EC2Aggregate where
  instances : List PyVal
  total : Nat
  running : Rat
  stopped : Rat
  terminated : Rat
  successful_regions : List String
  errors : List (String × PyVal)

/-- The aggregation loop of ResourceAggregator.fetch_ec2_resources over the
    region→result mapping: error-keyed entries go to the error list, other
    entries append their region, extend the instance list with
    result.get(instances, []) and add the summary counters (missing summary or
    counter defaults to the empty dict / zero). -/
def ec2_loop : List (String × PyDict) → EC2Aggregate
  | [] => ⟨[], 0, 0, 0, 0, [], []⟩
  | (region, result) :: rest =>
    let acc := ec2_loop rest
    if hasKey result "error" then
      { acc with
        errors := (region, (lookup? result "error").getD (PyVal.str "")) :: acc.errors }
    else
      { acc with
        instances := asList (lookup? result "instances") ++ acc.instances
        running := asNum (lookup? (asDict (lookup? result "summary")) "running") + acc.running
        stopped := asNum (lookup? (asDict (lookup? result "summary")) "stopped") + acc.stopped
        terminated :=
          asNum (lookup? (asDict (lookup? result "summary")) "terminated") + acc.terminated
        successful_regions := region :: acc.successful_regions }

/-- ResourceAggregator.fetch_ec2_resources, given the region→result mapping
    produced by the parallel fetch: runs the aggregation loop and sets the
    total counter to the length of the combined instance list. -/
def fetch_ec2_resources (region_results : List (String × PyDict)) : EC2Aggregate :=
  let acc := ec2_loop region_results
  { acc with total := acc.instances.length }

theorem ec2_loop_succ_eq (l : List (String × PyDict)) :
    (ec2_loop l).successful_regions = (agg_loop l).2.1 := by
  induction l with
  | nil => rfl
  | cons p rest ih =>
    obtain ⟨pk, pd⟩ := p
    cases hk : hasKey pd "error" with
    | true => simp only [ec2_loop, agg_loop, hk, if_true, ih]
    | false => simp only [ec2_loop, agg_loop, hk, if_false, Bool.false_eq_true, ih]

theorem ec2_loop_errors_eq (l : List (String × PyDict)) :
    (ec2_loop l).errors = (agg_loop l).2.2 := by
  induction l with
  | nil => rfl
  | cons p rest ih =>
    obtain ⟨pk, pd⟩ := p
    cases hk : hasKey pd "error" with
    | true => simp only [ec2_loop, agg_loop, hk, if_true, ih]
    | false => simp only [ec2_loop, agg_loop, hk, if_false, Bool.false_eq_true, ih]

/-- C3: Aggregate partition invariant.  For every region→result mapping (a
    dict, so keys are unique), the successful-region count plus the error
    count equals the number of entries, every queried region lands in exactly
    one of the two collections, and the same holds for the EC2 aggregation
    loop of fetch_ec2_resources. -/
theorem aggregate_results_partition (region_results : List (String × PyDict))
    (hnd : (keys region_results).Nodup) :
    ((aggregate_results region_results).successful_regions.length
        + (aggregate_results region_results).errors.length = region_results.length) ∧
    (∀ r ∈ keys region_results,
      (r ∈ (aggregate_results region_results).successful_regions ∧
        r ∉ (aggregate_results region_results).failed_regions) ∨
      (r ∈ (aggregate_results region_results).failed_regions ∧
        r ∉ (aggregate_results region_results).successful_regions)) ∧
    ((aggregate_results region_results).failed_regions
        = (aggregate_results region_results).errors.map (·.1)) ∧
    ((fetch_ec2_resources region_results).successful_regions.length
        + (fetch_ec2_resources region_results).errors.length = region_results.length) ∧
    (∀ r ∈ keys region_results,
      (r ∈ (fetch_ec2_resources region_results).successful_regions ∧
        r ∉ (fetch_ec2_resources region_results).errors.map (·.1)) ∨
      (r ∈ (fetch_ec2_resources region_results).errors.map (·.1) ∧
        r ∉ (fetch_ec2_resources region_results).successful_regions)) := by
  have hpart : ∀ r ∈ keys region_results,
      (r ∈ (agg_loop region_results).2.1 ∧
        r ∉ (agg_loop region_results).2.2.map (·.1)) ∨
      (r ∈ (agg_loop region_results).2.2.map (·.1) ∧
        r ∉ (agg_loop region_results).2.1) := by
    intro r hr
    obtain ⟨⟨r', d⟩, hmem, hfst⟩ := List.mem_map.mp hr
    have heq : r' = r := hfst
    rw [heq] at hmem
    have hcl := agg_classification region_results hnd r d hmem
    cases hk : hasKey d "error" with
    | true => exact Or.inr (hcl.1 hk)
    | false => exact Or.inl (hcl.2 hk)
  have he1 : (fetch_ec2_resources region_results).successful_regions
      = (agg_loop region_results).2.1 := ec2_loop_succ_eq region_results
  have he2 : (fetch_ec2_resources region_results).errors
      = (agg_loop region_results).2.2 := ec2_loop_errors_eq region_results
  refine ⟨agg_loop_length region_results, hpart, rfl, ?_, ?_⟩
  · rw [he1, he2]
    exact agg_loop_length region_results
  · intro r hr
    rw [he1, he2]
    exact hpart r hr

theorem aggregate_results_partition_witness :
    (keys [("r1", [("instances", PyVal.vlist [PyVal.str "a"])]),
           ("r2", [("error", PyVal.str "x")])]).Nodup ∧
    (aggregate_results [("r1", [("instances", PyVal.vlist [PyVal.str "a"])]),
        ("r2", [("error", PyVal.str "x")])]).successful_regions.length
      + (aggregate_results [("r1", [("instances", PyVal.vlist [PyVal.str "a"])]),
        ("r2", [("error", PyVal.str "x")])]).errors.length = 2 := by
  refine ⟨by simp [keys], ?_⟩
  exact (aggregate_results_partition
    [("r1", [("instances", PyVal.vlist [PyVal.str "a"])]),
     ("r2", [("error", PyVal.str "x")])] (by simp [keys])).1

/-- C10: classification is by the presence of the error dict key, not by a
    tagged union.  A region whose fetch returned normally but whose payload
    happens to contain an error key is counted as failed: it lands in the
    error list and failed-regions list, not in the successful list, and its
    items and counters are ignored, both in aggregate_results and in the EC2
    aggregation loop. -/
theorem error_key_classification (region_results : List (String × PyDict))
    (hnd : (keys region_results).Nodup) (r : String) (d : PyDict)
    (hmem : (r, d) ∈ region_results) (hkey : hasKey d "error" = true) :
    r ∈ (aggregate_results region_results).errors.map (·.1) ∧
    r ∈ (aggregate_results region_results).failed_regions ∧
    r ∉ (aggregate_results region_results).successful_regions ∧
    (aggregate_results [(r, d)]).items = [] ∧
    (aggregate_results [(r, d)]).total_count = 0 ∧
    (fetch_ec2_resources [(r, d)]).instances = [] ∧
    (fetch_ec2_resources [(r, d)]).running = 0 ∧
    (∀ (fetch : String → FetchOutcome) (durations : String → Nat) (timeout : Nat),
      fetch r = .ok d →
      fetch_from_regions [r] fetch durations timeout = [(r, d)]) := by
  have hcl := (agg_classification region_results hnd r d hmem).1 hkey
  refine ⟨hcl.1, hcl.1, hcl.2, ?_, ?_, ?_, ?_, ?_⟩
  · simp [aggregate_results, agg_loop, hkey]
  · simp [aggregate_results, agg_loop, hkey]
  · simp [fetch_ec2_resources, ec2_loop, hkey]
  · simp [fetch_ec2_resources, ec2_loop, hkey]
  · intro fetch durations timeout hf
    unfold fetch_from_regions
    rw [submitted_futures_eq]
    show upsert [] r (future_result timeout true ⟨r, durations r, fetch r⟩) = [(r, d)]
    rw [future_result_done, upsert]
    show [(r, region_value fetch r)] = [(r, d)]
    rw [region_value, hf]

/-- Witness payload for C10: a dict a fetch function returned normally that
    nevertheless contains an error key alongside real items. -/
def d10w : PyDict :=
  [("error", PyVal.str "x"), ("instances", PyVal.vlist [PyVal.str "i-1"])]

def r10w : String := "r1"

theorem error_key_classification_witness :
    r10w ∈ (aggregate_results [(r10w, d10w)]).errors.map (·.1) ∧
    (aggregate_results [(r10w, d10w)]).items = [] := by
  have h := error_key_classification [(r10w, d10w)] (by simp [keys]) r10w d10w
    (by simp) (by rfl)
  exact ⟨h.1, h.2.2.2.1⟩

/-! ## Calendar arithmetic (datetime.date as used by
    CostExplorerClient.get_cost_and_usage in
    src/aws_clients/cost_explorer_client.py).

    A date is a (year, month, day) triple; adding a timedelta of n days is n
    successor steps; month lengths follow the Gregorian calendar. -/

def isLeap (y : Nat) : Bool :=
  (y % 4 == 0 && y % 100 != 0) || (y % 400 == 0)

def daysInMonth (y m : Nat) : Nat :=
  if m = 2 then (if isLeap y then 29 else 28)
  else if m = 4 ∨ m = 6 ∨ m = 9 ∨ m = 11 then 30
  else 31

structure MDate where
  year : Nat
  month : Nat
  day : Nat
deriving Repr, DecidableEq

def nextDay (d : MDate) : MDate :=
  if d.day < daysInMonth d.year d.month then ⟨d.year, d.month, d.day + 1⟩
  else if d.month < 12 then ⟨d.year, d.month + 1, 1⟩
  else ⟨d.year + 1, 1, 1⟩

/-- date + timedelta(days=n). -/
def addDays (d : MDate) : Nat → MDate
  | 0 => d
  | n + 1 => addDays (nextDay d) n

/-- date - timedelta(days=1). -/
def prevDay (d : MDate) : MDate :=
  if 1 < d.day then ⟨d.year, d.month, d.day - 1⟩
  else if 1 < d.month then ⟨d.year, d.month - 1, daysInMonth d.year (d.month - 1)⟩
  else ⟨d.year - 1, 12, 31⟩

/-- month_end_date = (month_start + timedelta(days=32)).replace(day=1)
    - timedelta(days=1), with month_start = today.replace(day=1). -/
def month_end_date (today : MDate) : MDate :=
  let month_start : MDate := ⟨today.year, today.month, 1⟩
  let rolled := addDays month_start 32
  prevDay ⟨rolled.year, rolled.month, 1⟩

theorem daysInMonth_bounds (y m : Nat) :
    28 ≤ daysInMonth y m ∧ daysInMonth y m ≤ 31 := by
  unfold daysInMonth
  split
  · split <;> omega
  · split <;> omega

theorem addDays_succ (d : MDate) (n : Nat) :
    addDays d (n + 1) = addDays (nextDay d) n := rfl

theorem addDays_add (d : MDate) (a b : Nat) :
    addDays d (a + b) = addDays (addDays d a) b := by
  induction a generalizing d with
  | zero => rw [Nat.zero_add]; rfl
  | succ k ih =>
    have h1 : k + 1 + b = (k + b) + 1 := by omega
    calc addDays d (k + 1 + b) = addDays (nextDay d) (k + b) := by rw [h1]; rfl
    _ = addDays (addDays (nextDay d) k) b := ih (nextDay d)
    _ = addDays (addDays d (k + 1)) b := rfl

theorem addDays_within (n : Nat) : ∀ (d : MDate),
    d.day + n ≤ daysInMonth d.year d.month → addDays d n = ⟨d.year, d.month, d.day + n⟩ := by
  induction n with
  | zero =>
    intro d _
    cases d
    rfl
  | succ k ih =>
    intro d h
    have hlt : d.day < daysInMonth d.year d.month := by omega
    have hnext : nextDay d = ⟨d.year, d.month, d.day + 1⟩ := by
      unfold nextDay
      rw [if_pos hlt]
    rw [addDays_succ, hnext]
    rw [ih ⟨d.year, d.month, d.day + 1⟩ (by show d.day + 1 + k ≤ daysInMonth d.year d.month; omega)]
    show MDate.mk d.year d.month (d.day + 1 + k) = ⟨d.year, d.month, d.day + (k + 1)⟩
    have : d.day + 1 + k = d.day + (k + 1) := by omega
    rw [this]

theorem nextDay_month_end (y m : Nat) (hm : m < 12) :
    nextDay ⟨y, m, daysInMonth y m⟩ = ⟨y, m + 1, 1⟩ := by
  unfold nextDay
  rw [if_neg (show ¬(daysInMonth y m < daysInMonth y m) by omega),
    if_pos (show m < 12 from hm)]

theorem nextDay_year_end (y : Nat) :
    nextDay ⟨y, 12, daysInMonth y 12⟩ = ⟨y + 1, 1, 1⟩ := by
  unfold nextDay
  rw [if_neg (show ¬(daysInMonth y 12 < daysInMonth y 12) by omega),
    if_neg (show ¬((12 : Nat) < 12) by omega)]

/-- The day-of-month arithmetic of get_cost_and_usage lands on the last day of
    the calendar month containing the anchor date. -/
theorem month_end_day (y m dd : Nat) (h1 : 1 ≤ m) (h2 : m ≤ 12) :
    (month_end_date ⟨y, m, dd⟩).day = daysInMonth y m := by
  have hb := daysInMonth_bounds y m
  by_cases hm : m < 12
  · have s1 : addDays ⟨y, m, 1⟩ (daysInMonth y m - 1) = ⟨y, m, daysInMonth y m⟩ := by
      rw [addDays_within (daysInMonth y m - 1) ⟨y, m, 1⟩
        (by show 1 + (daysInMonth y m - 1) ≤ daysInMonth y m; omega)]
      show MDate.mk y m (1 + (daysInMonth y m - 1)) = ⟨y, m, daysInMonth y m⟩
      have he : 1 + (daysInMonth y m - 1) = daysInMonth y m := by omega
      rw [he]
    have hbnext := daysInMonth_bounds y (m + 1)
    have s2 : addDays ⟨y, m, 1⟩ 32 = ⟨y, m + 1, 1 + (32 - daysInMonth y m)⟩ := by
      have hsum : addDays ⟨y, m, 1⟩ (32 : Nat)
          = addDays (addDays (addDays ⟨y, m, 1⟩ (daysInMonth y m - 1)) 1)
              (32 - daysInMonth y m) := by
        rw [← addDays_add, ← addDays_add]
        congr 1
        omega
      rw [hsum, s1,
        show addDays ⟨y, m, daysInMonth y m⟩ 1 = nextDay ⟨y, m, daysInMonth y m⟩ from rfl,
        nextDay_month_end y m hm,
        addDays_within (32 - daysInMonth y m) ⟨y, m + 1, 1⟩
          (by show 1 + (32 - daysInMonth y m) ≤ daysInMonth y (m + 1); omega)]
    unfold month_end_date
    show (prevDay ⟨(addDays ⟨y, m, 1⟩ 32).year, (addDays ⟨y, m, 1⟩ 32).month, 1⟩).day
        = daysInMonth y m
    rw [s2]
    show (prevDay ⟨y, m + 1, 1⟩).day = daysInMonth y m
    unfold prevDay
    rw [if_neg (show ¬((1 : Nat) < 1) by omega),
      if_pos (show (1 : Nat) < m + 1 by omega)]
    show daysInMonth y (m + 1 - 1) = daysInMonth y m
    have he : m + 1 - 1 = m := by omega
    rw [he]
  · have hm12 : m = 12 := by omega
    subst hm12
    have s1 : addDays ⟨y, 12, 1⟩ (daysInMonth y 12 - 1) = ⟨y, 12, daysInMonth y 12⟩ := by
      rw [addDays_within (daysInMonth y 12 - 1) ⟨y, 12, 1⟩
        (by show 1 + (daysInMonth y 12 - 1) ≤ daysInMonth y 12; omega)]
      show MDate.mk y 12 (1 + (daysInMonth y 12 - 1)) = ⟨y, 12, daysInMonth y 12⟩
      have he : 1 + (daysInMonth y 12 - 1) = daysInMonth y 12 := by omega
      rw [he]
    have hd : daysInMonth y 12 = 31 := by norm_num [daysInMonth]
    have hb1 := daysInMonth_bounds (y + 1) 1
    have s2 : addDays ⟨y, 12, 1⟩ 32 = ⟨y + 1, 1, 1 + (32 - daysInMonth y 12)⟩ := by
      have hsum : addDays ⟨y, 12, 1⟩ (32 : Nat)
          = addDays (addDays (addDays ⟨y, 12, 1⟩ (daysInMonth y 12 - 1)) 1)
              (32 - daysInMonth y 12) := by
        rw [← addDays_add, ← addDays_add]
        congr 1
      rw [hsum, s1,
        show addDays ⟨y, 12, daysInMonth y 12⟩ 1 = nextDay ⟨y, 12, daysInMonth y 12⟩ from rfl,
        nextDay_year_end y,
        addDays_within (32 - daysInMonth y 12) ⟨y + 1, 1, 1⟩
          (by show 1 + (32 - daysInMonth y 12) ≤ daysInMonth (y + 1) 1; omega)]
    unfold month_end_date
    show (prevDay ⟨(addDays ⟨y, 12, 1⟩ 32).year, (addDays ⟨y, 12, 1⟩ 32).month, 1⟩).day
        = daysInMonth y 12
    rw [s2]
    show (prevDay ⟨y + 1, 1, 1⟩).day = daysInMonth y 12
    unfold prevDay
    rw [if_neg (show ¬((1 : Nat) < 1) by omega),
      if_neg (show ¬((1 : Nat) < 1) by omega)]
    show (31 : Nat) = daysInMonth y 12
    omega

/-! ## Rounding (Python round(x, 2) on values modelled as rationals) -/

/-- Round to the nearest integer, ties to even (the rule of Python round). -/
def roundHalfEven (q : Rat) : Int :=
  let n := q.floor
  let frac := q - (n : Rat)
  if frac < 1/2 then n
  else if 1/2 < frac then n + 1
  else if n % 2 = 0 then n else n + 1

/-- round(x, 2). -/
def round2 (q : Rat) : Rat := ((roundHalfEven (q * 100) : Int) : Rat) / 100

/-! ## CostExplorerClient (src/aws_clients/cost_explorer_client.py)

    One response shape serves the three billing queries.  A time bucket of
    ResultsByTime carries the Start date of its TimePeriod, the parsed Amount
    of Total.UnblendedCost (a missing component defaults to the string 0, so
    we model the parsed amount with a default of zero), and its Groups.  A
    group carries the value of its Keys entry (absent models a missing Keys
    key, defaulted to the singleton Unknown list) and its parsed Amount. -/

structure CEGroup where
  keys : Option (List String)
  amount : Option Rat

structure TimeBucket where
  start : Option String
  amount : Option Rat
  groups : List CEGroup

/-- Outcome of one billing query as seen inside the try block of a sub-call:
    error models an exception raised during the call, ok none a falsy response
    or one without a ResultsByTime key (safe_api_call returns None on
    failure), ok (some buckets) the ResultsByTime list. -/
abbrev CECall := Except Unit (Option (List TimeBucket))

/-- CostExplorerClient._get_cost_for_period: sums the bucket amounts, or 0.0
    on a missing response or an exception. -/
def get_cost_for_period (call : CECall) : Rat :=
  match call with
  | .error _ => 0
  | .ok none => 0
  | .ok (some buckets) => buckets.foldl (fun acc b => acc + b.amount.getD 0) 0

/-- CostExplorerClient._get_daily_costs: one (date, rounded cost) entry per
    bucket, in response order; empty on a missing response or an exception. -/
def get_daily_costs (call : CECall) : List (String × Rat) :=
  match call with
  | .error _ => []
  | .ok none => []
  | .ok (some buckets) =>
    buckets.map (fun b => (b.start.getD "Unknown", round2 (b.amount.getD 0)))

/-- The service name of a group: element 0 of group.get(Keys, [Unknown]).
    none models the IndexError raised when the Keys value is an empty list. -/
def groupName (g : CEGroup) : Option String := (g.keys.getD ["Unknown"]).head?

/-- The running-total update for one group:
    add to the existing total of the name, else append a new entry. -/
def upsertAdd : List (String × Rat) → String → Rat → List (String × Rat)
  | [], k, v => [(k, v)]
  | (k', v') :: rest, k, v =>
    if k' = k then (k', v' + v) :: rest else (k', v') :: upsertAdd rest k v

/-- The relation by which the service list is sorted: descending cost. -/
def costDescRel (a b : String × Rat) : Prop := b.2 ≤ a.2

instance : DecidableRel costDescRel :=
  fun a b => inferInstanceAs (Decidable (b.2 ≤ a.2))

instance : IsTotal (String × Rat) costDescRel := ⟨fun a b => le_total b.2 a.2⟩

instance : IsTrans (String × Rat) costDescRel := ⟨fun _ _ _ h1 h2 => le_trans h2 h1⟩

/-- The nested accumulation loop of _get_service_breakdown over all time
    buckets and their groups, building service_totals in first-seen order. -/
def accum_service_totals (buckets : List TimeBucket) : List (String × Rat) :=
  buckets.foldl (fun totals b =>
    b.groups.foldl (fun totals g =>
      upsertAdd totals ((g.keys.getD ["Unknown"]).headD "") (g.amount.getD 0)) totals) []

/-- CostExplorerClient._get_service_breakdown: accumulate per-service totals
    across all buckets, round each, sort descending by cost.  An empty Keys
    list in any group raises IndexError inside the try block, so the whole
    call degrades to the empty list (hence the guard). -/
def get_service_breakdown (call : CECall) : List (String × Rat) :=
  match call with
  | .error _ => []
  | .ok none => []
  | .ok (some buckets) =>
    if buckets.any (fun b => b.groups.any (fun g => (groupName g).isNone)) then []
    else
      List.insertionSort costDescRel
        ((accum_service_totals buckets).map (fun p => (p.1, round2 p.2)))

/-- daily_average = mtd_cost / days_elapsed if days_elapsed > 0 else 0. -/
def cost_daily_average (mtd_cost : Rat) (days_elapsed : Nat) : Rat :=
  if 0 < days_elapsed then mtd_cost / (days_elapsed : Rat) else 0

structure CostSnapshot where
  mtd_cost : Rat
  projected_eom_cost : Rat
  daily_average : Rat
  yesterday_cost : Rat
  daily_costs : List (String × Rat)
  service_costs : List (String × Rat)
  metadata : Option (Nat × Nat)
deriving Repr

/-- CostExplorerClient.get_cost_and_usage, given the anchor date and the
    outcomes of the four billing queries (month-to-date period, daily series,
    service breakdown, yesterday period).  The embedding is a total function:
    each sub-call already degrades internally, so the outer except branch
    (which would return _empty_response) is unreachable. -/
def get_cost_and_usage (today : MDate)
    (mtdCall dailyCall svcCall yestCall : CECall) : CostSnapshot :=
  let mtd_cost := get_cost_for_period mtdCall
  let daily_costs := get_daily_costs dailyCall
  let service_costs := get_service_breakdown svcCall
  let days_in_month := (month_end_date today).day
  let days_elapsed := today.day
  let daily_average := cost_daily_average mtd_cost days_elapsed
  let projected_eom := daily_average * (days_in_month : Rat)
  let yesterday_cost := get_cost_for_period yestCall
  { mtd_cost := round2 mtd_cost
    projected_eom_cost := round2 projected_eom
    daily_average := round2 daily_average
    yesterday_cost := round2 yesterday_cost
    daily_costs := daily_costs
    service_costs := service_costs
    metadata := some (days_elapsed, days_in_month) }

/-- CostExplorerClient._empty_response. -/
def empty_response : CostSnapshot :=
  { mtd_cost := 0
    projected_eom_cost := 0
    daily_average := 0
    yesterday_cost := 0
    daily_costs := []
    service_costs := []
    metadata := none }

theorem roundHalfEven_intCast (n : Int) : roundHalfEven ((n : Int) : Rat) = n := by
  simp only [roundHalfEven]
  rw [show ((n : Int) : Rat).floor = n from by rw [Rat.floor_def']; simp]
  norm_num

theorem round2_eq (q : Rat) (n : Int) (h : q * 100 = ((n : Int) : Rat)) :
    round2 q = ((n : Int) : Rat) / 100 := by
  unfold round2
  rw [h, roundHalfEven_intCast]

theorem round2_zero : round2 0 = 0 := by
  rw [round2_eq 0 0 (by norm_num)]
  norm_num

theorem cost_daily_average_zero_mtd (n : Nat) : cost_daily_average 0 n = 0 := by
  unfold cost_daily_average
  split <;> simp

/-- The one_bucket billing outcome used by the C5 instance:
    a single monthly bucket of amount 62.00. -/
def mtd62_call : CECall := .ok (some [⟨none, some 62, []⟩])

theorem get_cost_for_period_62 : get_cost_for_period mtd62_call = 62 := by
  show (0 : Rat) + (Option.getD (some 62) 0) = 62
  norm_num

/-- C5: Cost projection arithmetic.  days_in_month computed by the 32-day
    roll-and-truncate really is the length of the calendar month containing
    the anchor date (for any year, any month, no fixed 30/31 constant);
    daily_average guards division by a zero days_elapsed; and on the concrete
    instance (mtd 62.00 over 10 elapsed days of a 30-day month) the snapshot
    reports daily_average 6.20 and projected_eom_cost 186.00. -/
theorem cost_projection_arithmetic (y m dd : Nat) (mtd : Rat)
    (h1 : 1 ≤ m) (h2 : m ≤ 12) :
    ((month_end_date ⟨y, m, dd⟩).day = daysInMonth y m) ∧
    (cost_daily_average mtd 0 = 0) ∧
    (0 < dd → cost_daily_average mtd dd = mtd / (dd : Rat)) ∧
    ((get_cost_and_usage ⟨2025, 4, 10⟩ mtd62_call (.ok none) (.ok none)
        (.ok none)).daily_average = 31 / 5) ∧
    ((get_cost_and_usage ⟨2025, 4, 10⟩ mtd62_call (.ok none) (.ok none)
        (.ok none)).projected_eom_cost = 186) ∧
    ((get_cost_and_usage ⟨2025, 4, 10⟩ mtd62_call (.ok none) (.ok none)
        (.ok none)).metadata = some (10, 30)) := by
  have hdim : (month_end_date ⟨2025, 4, 10⟩).day = 30 := by decide
  have hda : cost_daily_average 62 10 = 62 / 10 := by
    unfold cost_daily_average
    rw [if_pos (by omega)]
    norm_num
  refine ⟨month_end_day y m dd h1 h2, ?_, ?_, ?_, ?_, ?_⟩
  · unfold cost_daily_average
    rw [if_neg (by omega)]
  · intro hdd
    unfold cost_daily_average
    rw [if_pos hdd]
  · show round2 (cost_daily_average (get_cost_for_period mtd62_call) 10) = 31 / 5
    rw [get_cost_for_period_62, hda, round2_eq (62 / 10) 620 (by norm_num)]
    norm_num
  · show round2 (cost_daily_average (get_cost_for_period mtd62_call) 10
        * (((month_end_date ⟨2025, 4, 10⟩).day : Nat) : Rat)) = 186
    rw [get_cost_for_period_62, hda, hdim,
      round2_eq (62 / 10 * ((30 : Nat) : Rat)) 18600 (by push_cast; norm_num)]
    norm_num
  · show some (10, (month_end_date ⟨2025, 4, 10⟩).day) = some (10, 30)
    rw [hdim]

theorem cost_projection_arithmetic_witness :
    (month_end_date ⟨2025, 4, 10⟩).day = daysInMonth 2025 4 ∧
    (get_cost_and_usage ⟨2025, 4, 10⟩ mtd62_call (.ok none) (.ok none)
        (.ok none)).daily_average = 31 / 5 ∧
    (get_cost_and_usage ⟨2025, 4, 10⟩ mtd62_call (.ok none) (.ok none)
        (.ok none)).projected_eom_cost = 186 := by
  have h := cost_projection_arithmetic 2025 4 10 62 (by omega) (by omega)
  exact ⟨h.1, h.2.2.2.1, h.2.2.2.2.1⟩

/-- C7: Cost snapshot degradation.  A failing billing sub-call (an exception
    inside its try block or a missing response) contributes its zero or empty
    value; each field of the snapshot depends only on its own sub-call, the
    snapshot embedding is a total function (never raises), and the outer
    except fallback _empty_response is a structurally complete all-zero
    snapshot. -/
theorem snapshot_degradation (today : MDate) (m d s yc : CECall) :
    ((m = .error () ∨ m = .ok none) →
      (get_cost_and_usage today m d s yc).mtd_cost = 0 ∧
      (get_cost_and_usage today m d s yc).daily_average = 0 ∧
      (get_cost_and_usage today m d s yc).projected_eom_cost = 0) ∧
    ((d = .error () ∨ d = .ok none) →
      (get_cost_and_usage today m d s yc).daily_costs = []) ∧
    ((s = .error () ∨ s = .ok none) →
      (get_cost_and_usage today m d s yc).service_costs = []) ∧
    ((yc = .error () ∨ yc = .ok none) →
      (get_cost_and_usage today m d s yc).yesterday_cost = 0) ∧
    ((get_cost_and_usage today m d s yc).daily_costs = get_daily_costs d) ∧
    ((get_cost_and_usage today m d s yc).service_costs = get_service_breakdown s) ∧
    ((get_cost_and_usage today m d s yc).yesterday_cost
        = round2 (get_cost_for_period yc)) ∧
    empty_response.mtd_cost = 0 ∧ empty_response.projected_eom_cost = 0 ∧
    empty_response.daily_average = 0 ∧ empty_response.yesterday_cost = 0 ∧
    empty_response.daily_costs = [] ∧ empty_response.service_costs = [] := by
  have hm0 : (m = .error () ∨ m = .ok none) → get_cost_for_period m = 0 := by
    rintro (rfl | rfl) <;> rfl
  have hy0 : (yc = .error () ∨ yc = .ok none) → get_cost_for_period yc = 0 := by
    rintro (rfl | rfl) <;> rfl
  refine ⟨?_, ?_, ?_, ?_, rfl, rfl, rfl, rfl, rfl, rfl, rfl, rfl, rfl⟩
  · intro hfail
    have h0 := hm0 hfail
    refine ⟨?_, ?_, ?_⟩
    · show round2 (get_cost_for_period m) = 0
      rw [h0, round2_zero]
    · show round2 (cost_daily_average (get_cost_for_period m) today.day) = 0
      rw [h0, cost_daily_average_zero_mtd, round2_zero]
    · show round2 (cost_daily_average (get_cost_for_period m) today.day
          * (((month_end_date today).day : Nat) : Rat)) = 0
      rw [h0, cost_daily_average_zero_mtd, zero_mul, round2_zero]
  · rintro (rfl | rfl) <;> rfl
  · rintro (rfl | rfl) <;> rfl
  · intro hfail
    show round2 (get_cost_for_period yc) = 0
    rw [hy0 hfail, round2_zero]

theorem snapshot_degradation_witness :
    (get_cost_and_usage ⟨2025, 1, 1⟩ (.error ()) (.error ()) (.ok none)
        (.error ())).mtd_cost = 0 ∧
    (get_cost_and_usage ⟨2025, 1, 1⟩ (.error ()) (.error ()) (.ok none)
        (.error ())).daily_costs = [] ∧
    (get_cost_and_usage ⟨2025, 1, 1⟩ (.error ()) (.error ()) (.ok none)
        (.error ())).service_costs = [] := by
  have h := snapshot_degradation ⟨2025, 1, 1⟩ (.error ()) (.error ()) (.ok none) (.error ())
  exact ⟨(h.1 (Or.inl rfl)).1, h.2.1 (Or.inl rfl), h.2.2.1 (Or.inr rfl)⟩

/-! ## RegionManager (src/aws_clients/region_manager.py) -/

/-- Outcome of the describe-regions attempt inside the try block of
    get_all_regions: error models an exception, ok none a falsy response or
    one without a Regions key (safe_api_call returns None on failure),
    ok (some names) the RegionName values of the response. -/
abbrev RegionsCall := Except Unit (Option (List String))

/-- RegionManager.get_all_regions as a transformer of the cached list
    (self._all_regions): returns the cache untouched when it is set;
    otherwise resolves the describe-regions outcome, falling back to the
    single configured default region on an exception or a bad response, and
    stores the result in the cache in every branch. -/
def get_all_regions (cache : Option (List String)) (call : RegionsCall)
    (defaultRegion : String) : List String × Option (List String) :=
  match cache with
  | some regions => (regions, some regions)
  | none =>
    match call with
    | .ok (some names) => (names, some names)
    | .ok none => ([defaultRegion], some [defaultRegion])
    | .error _ => ([defaultRegion], some [defaultRegion])

/-- C8: Region discovery fallback and caching.  On an exception or a bad
    response the call returns the single default region (the embedding is a
    total function: nothing raises); a successful call returns the discovered
    names; and once a first call has populated the cache, any later call
    returns the same list unchanged whatever its own describe-regions outcome
    would have been, i.e. the external capability is not consulted again. -/
theorem get_all_regions_fallback_and_cache (call call2 : RegionsCall)
    (defaultRegion : String) :
    (get_all_regions none (.error ()) defaultRegion
        = ([defaultRegion], some [defaultRegion])) ∧
    (get_all_regions none (.ok none) defaultRegion
        = ([defaultRegion], some [defaultRegion])) ∧
    (∀ names, get_all_regions none (.ok (some names)) defaultRegion
        = (names, some names)) ∧
    (get_all_regions (get_all_regions none call defaultRegion).2 call2 defaultRegion
        = ((get_all_regions none call defaultRegion).1,
           (get_all_regions none call defaultRegion).2)) := by
  refine ⟨rfl, rfl, fun names => rfl, ?_⟩
  cases call with
  | error e => rfl
  | ok o => cases o <;> rfl

/-! ## Properties of the service breakdown accumulation and sort -/

/-- The name under which a group is accumulated:
    element 0 of group.get(Keys, [Unknown]), as a total function. -/
def group_entry_name (g : CEGroup) : String := (g.keys.getD ["Unknown"]).headD ""

/-- The amounts contributed to one label by a flat group list. -/
def amounts_for (gs : List CEGroup) (name : String) : List Rat :=
  (gs.filter (fun g => group_entry_name g == name)).map (fun g => g.amount.getD 0)

theorem amounts_for_nil (name : String) : amounts_for [] name = [] := rfl

theorem amounts_for_cons_pos (g : CEGroup) (gs : List CEGroup) (name : String)
    (h : group_entry_name g = name) :
    amounts_for (g :: gs) name = g.amount.getD 0 :: amounts_for gs name := by
  unfold amounts_for
  rw [List.filter_cons_of_pos (by simpa using h), List.map_cons]

theorem amounts_for_cons_neg (g : CEGroup) (gs : List CEGroup) (name : String)
    (h : group_entry_name g ≠ name) :
    amounts_for (g :: gs) name = amounts_for gs name := by
  unfold amounts_for
  rw [List.filter_cons_of_neg (by simpa using h)]

theorem keys_upsertAdd (t : List (String × Rat)) (k : String) (v : Rat) (k' : String) :
    k' ∈ keys (upsertAdd t k v) ↔ k' = k ∨ k' ∈ keys t := by
  induction t with
  | nil => simp [upsertAdd, keys]
  | cons p rest ih =>
    obtain ⟨pk, pv⟩ := p
    by_cases h : pk = k
    · rw [show upsertAdd ((pk, pv) :: rest) k v = (pk, pv + v) :: rest from by
        simp [upsertAdd, h]]
      rw [keys_cons, keys_cons, List.mem_cons, h]
      tauto
    · rw [show upsertAdd ((pk, pv) :: rest) k v = (pk, pv) :: upsertAdd rest k v from by
        simp [upsertAdd, h]]
      rw [keys_cons, keys_cons, List.mem_cons, List.mem_cons, ih]
      tauto

theorem nodup_keys_upsertAdd (t : List (String × Rat)) (k : String) (v : Rat)
    (h : (keys t).Nodup) : (keys (upsertAdd t k v)).Nodup := by
  induction t with
  | nil => simp [upsertAdd, keys]
  | cons p rest ih =>
    obtain ⟨pk, pv⟩ := p
    rw [keys_cons, List.nodup_cons] at h
    by_cases hk : pk = k
    · rw [show upsertAdd ((pk, pv) :: rest) k v = (pk, pv + v) :: rest from by
        simp [upsertAdd, hk]]
      rw [keys_cons, List.nodup_cons]
      exact h
    · rw [show upsertAdd ((pk, pv) :: rest) k v = (pk, pv) :: upsertAdd rest k v from by
        simp [upsertAdd, hk]]
      rw [keys_cons, List.nodup_cons]
      constructor
      · intro hmem
        rcases (keys_upsertAdd rest k v pk).mp hmem with h1 | h1
        · exact hk h1
        · exact h.1 h1
      · exact ih h.2

theorem lookup?_upsertAdd_self (t : List (String × Rat)) (k : String) (v : Rat) :
    lookup? (upsertAdd t k v) k = some ((lookup? t k).getD 0 + v) := by
  induction t with
  | nil =>
    show lookup? [(k, v)] k = some ((none : Option Rat).getD 0 + v)
    rw [lookup?_cons_pos [] k k v rfl]
    norm_num
  | cons p rest ih =>
    obtain ⟨pk, pv⟩ := p
    by_cases h : pk = k
    · rw [show upsertAdd ((pk, pv) :: rest) k v = (pk, pv + v) :: rest from by
        simp [upsertAdd, h]]
      rw [lookup?_cons_pos rest pk k (pv + v) h, lookup?_cons_pos rest pk k pv h]
      rfl
    · rw [show upsertAdd ((pk, pv) :: rest) k v = (pk, pv) :: upsertAdd rest k v from by
        simp [upsertAdd, h]]
      rw [lookup?_cons_neg _ pk k pv h, lookup?_cons_neg rest pk k pv h, ih]

theorem lookup?_upsertAdd_ne (t : List (String × Rat)) (k : String) (v : Rat)
    (k' : String) (h : k' ≠ k) : lookup? (upsertAdd t k v) k' = lookup? t k' := by
  induction t with
  | nil =>
    show lookup? [(k, v)] k' = lookup? [] k'
    rw [lookup?_cons_neg [] k k' v (Ne.symm h)]
  | cons p rest ih =>
    obtain ⟨pk, pv⟩ := p
    by_cases hk : pk = k
    · rw [show upsertAdd ((pk, pv) :: rest) k v = (pk, pv + v) :: rest from by
        simp [upsertAdd, hk]]
      by_cases hk' : pk = k'
      · exact absurd (hk'.symm.trans hk) h
      · rw [lookup?_cons_neg rest pk k' (pv + v) hk', lookup?_cons_neg rest pk k' pv hk']
    · rw [show upsertAdd ((pk, pv) :: rest) k v = (pk, pv) :: upsertAdd rest k v from by
        simp [upsertAdd, hk]]
      by_cases hk' : pk = k'
      · rw [lookup?_cons_pos _ pk k' pv hk', lookup?_cons_pos rest pk k' pv hk']
      · rw [lookup?_cons_neg _ pk k' pv hk', lookup?_cons_neg rest pk k' pv hk', ih]

/-- The accumulation step of _get_service_breakdown for one group. -/
def breakdown_step (totals : List (String × Rat)) (g : CEGroup) : List (String × Rat) :=
  upsertAdd totals (group_entry_name g) (g.amount.getD 0)

theorem accum_service_totals_eq (buckets : List TimeBucket) :
    accum_service_totals buckets
      = ((buckets.map TimeBucket.groups).flatten).foldl breakdown_step [] := by
  show (buckets.foldl (fun totals b => b.groups.foldl breakdown_step totals) [])
      = ((buckets.map TimeBucket.groups).flatten).foldl breakdown_step []
  generalize [] = init
  induction buckets generalizing init with
  | nil => rfl
  | cons b bs ih =>
    rw [List.foldl_cons, List.map_cons, List.flatten_cons, List.foldl_append, ih]

theorem getD_lookup?_foldl_breakdown (gs : List CEGroup) (init : List (String × Rat))
    (name : String) :
    ((lookup? (gs.foldl breakdown_step init) name).getD 0)
      = (lookup? init name).getD 0 + (amounts_for gs name).sum := by
  induction gs generalizing init with
  | nil => rw [amounts_for_nil]; simp
  | cons g gs ih =>
    rw [List.foldl_cons]
    by_cases h : group_entry_name g = name
    · rw [amounts_for_cons_pos g gs name h, List.sum_cons, ih]
      show ((lookup? (upsertAdd init (group_entry_name g) (g.amount.getD 0)) name).getD 0)
          + (amounts_for gs name).sum = _
      rw [h, lookup?_upsertAdd_self]
      show (lookup? init name).getD 0 + g.amount.getD 0 + (amounts_for gs name).sum = _
      ring
    · rw [amounts_for_cons_neg g gs name h, ih]
      show ((lookup? (upsertAdd init (group_entry_name g) (g.amount.getD 0)) name).getD 0)
          + (amounts_for gs name).sum = _
      rw [lookup?_upsertAdd_ne _ _ _ _ (fun he => h he.symm)]

theorem lookup?_foldl_breakdown_none (gs : List CEGroup) (init : List (String × Rat))
    (name : String) :
    lookup? (gs.foldl breakdown_step init) name = none
      ↔ (lookup? init name = none ∧ amounts_for gs name = []) := by
  induction gs generalizing init with
  | nil =>
    rw [amounts_for_nil]
    simp
  | cons g gs ih =>
    rw [List.foldl_cons, ih]
    by_cases h : group_entry_name g = name
    · rw [amounts_for_cons_pos g gs name h]
      show (lookup? (upsertAdd init (group_entry_name g) (g.amount.getD 0)) name = none ∧ _)
          ↔ _
      rw [h, lookup?_upsertAdd_self]
      simp
    · rw [amounts_for_cons_neg g gs name h]
      show (lookup? (upsertAdd init (group_entry_name g) (g.amount.getD 0)) name = none ∧ _)
          ↔ _
      rw [lookup?_upsertAdd_ne _ _ _ _ (fun he => h he.symm)]

theorem nodup_keys_foldl_breakdown (gs : List CEGroup) (init : List (String × Rat))
    (h : (keys init).Nodup) : (keys (gs.foldl breakdown_step init)).Nodup := by
  induction gs generalizing init with
  | nil => exact h
  | cons g gs ih =>
    rw [List.foldl_cons]
    exact ih _ (nodup_keys_upsertAdd _ _ _ h)

theorem mem_iff_lookup?_of_nodup {α : Type} (d : List (String × α))
    (hnd : (keys d).Nodup) (k : String) (v : α) :
    (k, v) ∈ d ↔ lookup? d k = some v := by
  induction d with
  | nil => simp [lookup?]
  | cons p rest ih =>
    obtain ⟨pk, pv⟩ := p
    rw [keys_cons, List.nodup_cons] at hnd
    rw [List.mem_cons]
    by_cases hk : pk = k
    · rw [lookup?_cons_pos rest pk k pv hk]
      constructor
      · rintro (he | hm)
        · obtain ⟨h1, h2⟩ := Prod.mk.injEq .. ▸ he
          rw [h2]
        · exact absurd (hk ▸ List.mem_map.mpr ⟨(k, v), hm, rfl⟩) hnd.1
      · intro hv
        have hv' : pv = v := Option.some.inj hv
        left
        rw [hk, hv']
    · rw [lookup?_cons_neg rest pk k pv hk, ← ih hnd.2]
      constructor
      · rintro (he | hm)
        · obtain ⟨h1, h2⟩ := Prod.mk.injEq .. ▸ he
          exact absurd h1.symm hk
        · exact hm
      · exact Or.inr

/-- The two-bucket response of the C6 instance: service costs split across
    two time buckets as A: 2+3, B: 12+8, C: 1, so the accumulated totals are
    A: 5.0, B: 20.0, C: 1.0. -/
def c6_buckets : List TimeBucket :=
  [⟨none, none, [⟨some ["A"], some 2⟩, ⟨some ["B"], some 12⟩, ⟨some ["C"], some 1⟩]⟩,
   ⟨none, none, [⟨some ["A"], some 3⟩, ⟨some ["B"], some 8⟩]⟩]

/-- C6: Service breakdown ordering.  For any response whose groups all carry a
    non-empty Keys list, the breakdown is sorted descending by cost, has one
    entry per label, and an entry (name, c) appears exactly when the label
    occurs in some bucket, with c the rounded sum of that label's amounts
    across all buckets; on the concrete two-bucket split of
    A: 5.0, B: 20.0, C: 1.0 the result is B(20.0), A(5.0), C(1.0). -/
theorem service_breakdown_ordering (buckets : List TimeBucket)
    (hnames : ∀ b ∈ buckets, ∀ g ∈ b.groups, (groupName g).isSome = true) :
    List.Sorted costDescRel (get_service_breakdown (.ok (some buckets))) ∧
    (keys (get_service_breakdown (.ok (some buckets)))).Nodup ∧
    (∀ name c, (name, c) ∈ get_service_breakdown (.ok (some buckets)) ↔
      (amounts_for ((buckets.map TimeBucket.groups).flatten) name ≠ [] ∧
        c = round2 (amounts_for ((buckets.map TimeBucket.groups).flatten) name).sum)) ∧
    get_service_breakdown (.ok (some c6_buckets)) = [("B", 20), ("A", 5), ("C", 1)] := by
  have hguard : (buckets.any (fun b => b.groups.any (fun g => (groupName g).isNone))) = false := by
    rw [List.any_eq_false]
    intro b hb
    rw [Bool.not_eq_true, List.any_eq_false]
    intro g hg
    rw [Bool.not_eq_true]
    have hs := hnames b hb g hg
    cases hx : groupName g with
    | some s => rfl
    | none => rw [hx] at hs; simp at hs
  have hbr : get_service_breakdown (.ok (some buckets))
      = List.insertionSort costDescRel
          ((accum_service_totals buckets).map (fun p => (p.1, round2 p.2))) := by
    show (if (buckets.any fun b => b.groups.any fun g => (groupName g).isNone) = true
        then ([] : List (String × Rat))
        else List.insertionSort costDescRel
          ((accum_service_totals buckets).map (fun p => (p.1, round2 p.2)))) = _
    rw [if_neg (by rw [hguard]; exact Bool.false_ne_true)]
  have hT := accum_service_totals_eq buckets
  have hndk : (keys (accum_service_totals buckets)).Nodup := by
    rw [hT]
    exact nodup_keys_foldl_breakdown _ _ (by simp [keys])
  have hF : ∀ name pc, lookup? (accum_service_totals buckets) name = some pc ↔
      (amounts_for ((buckets.map TimeBucket.groups).flatten) name ≠ [] ∧
        pc = (amounts_for ((buckets.map TimeBucket.groups).flatten) name).sum) := by
    intro name pc
    constructor
    · intro hl
      have h1 := getD_lookup?_foldl_breakdown ((buckets.map TimeBucket.groups).flatten) [] name
      rw [← hT, hl] at h1
      have h2 : ¬(lookup? (accum_service_totals buckets) name = none) := by
        rw [hl]
        simp
      rw [hT, lookup?_foldl_breakdown_none] at h2
      push_neg at h2
      refine ⟨h2 rfl, ?_⟩
      simpa [lookup?] using h1
    · rintro ⟨hne, rfl⟩
      cases hl : lookup? (accum_service_totals buckets) name with
      | none =>
        rw [hT, lookup?_foldl_breakdown_none] at hl
        exact absurd hl.2 hne
      | some x =>
        have h1 := getD_lookup?_foldl_breakdown ((buckets.map TimeBucket.groups).flatten) [] name
        rw [← hT, hl] at h1
        simp [lookup?] at h1
        rw [h1]
  have hperm := List.perm_insertionSort costDescRel
    ((accum_service_totals buckets).map (fun p => (p.1, round2 p.2)))
  refine ⟨?_, ?_, ?_, ?_⟩
  · rw [hbr]
    exact List.sorted_insertionSort costDescRel _
  · rw [hbr]
    show ((List.insertionSort costDescRel
        ((accum_service_totals buckets).map (fun p => (p.1, round2 p.2)))).map (·.1)).Nodup
    rw [(hperm.map (·.1)).nodup_iff]
    have hkeq : ((accum_service_totals buckets).map (fun p => (p.1, round2 p.2))).map (·.1)
        = keys (accum_service_totals buckets) := by
      unfold keys
      rw [List.map_map]
      rfl
    rw [hkeq]
    exact hndk
  · intro name c
    rw [hbr, hperm.mem_iff, List.mem_map]
    constructor
    · rintro ⟨⟨pn, pc⟩, hp, hf⟩
      obtain ⟨h1, h2⟩ := Prod.mk.injEq .. ▸ hf
      have h1' : pn = name := h1
      have h2' : round2 pc = c := h2
      have hl := (mem_iff_lookup?_of_nodup (accum_service_totals buckets) hndk pn pc).mp hp
      rw [h1'] at hl
      obtain ⟨hne, hsum⟩ := (hF name pc).mp hl
      exact ⟨hne, by rw [← h2', hsum]⟩
    · rintro ⟨hne, rfl⟩
      refine ⟨(name, (amounts_for ((buckets.map TimeBucket.groups).flatten) name).sum),
        ?_, rfl⟩
      exact (mem_iff_lookup?_of_nodup (accum_service_totals buckets) hndk name _).mpr
        ((hF name _).mpr ⟨hne, rfl⟩)
  · have hg6 : (c6_buckets.any (fun b => b.groups.any (fun g => (groupName g).isNone)))
        = false := by decide
    have htot : accum_service_totals c6_buckets
        = [("A", (2 : Rat) + 3), ("B", (12 : Rat) + 8), ("C", (1 : Rat))] := rfl
    have rA : round2 ((2 : Rat) + 3) = 5 := by
      rw [round2_eq _ 500 (by norm_num)]
      norm_num
    have rB : round2 ((12 : Rat) + 8) = 20 := by
      rw [round2_eq _ 2000 (by norm_num)]
      norm_num
    have rC : round2 ((1 : Rat)) = 1 := by
      rw [round2_eq _ 100 (by norm_num)]
      norm_num
    show (if (c6_buckets.any fun b => b.groups.any fun g => (groupName g).isNone) = true
        then ([] : List (String × Rat))
        else List.insertionSort costDescRel
          ((accum_service_totals c6_buckets).map (fun p => (p.1, round2 p.2)))) = _
    rw [if_neg (by rw [hg6]; exact Bool.false_ne_true), htot]
    show List.insertionSort costDescRel
        [("A", round2 ((2 : Rat) + 3)), ("B", round2 ((12 : Rat) + 8)),
         ("C", round2 ((1 : Rat)))] = _
    rw [rA, rB, rC]
    norm_num [List.insertionSort, List.orderedInsert, costDescRel]

theorem service_breakdown_ordering_witness :
    List.Sorted costDescRel (get_service_breakdown (.ok (some c6_buckets))) ∧
    get_service_breakdown (.ok (some c6_buckets)) = [("B", 20), ("A", 5), ("C", 1)] := by
  have h := service_breakdown_ordering c6_buckets (by decide)
  exact ⟨h.1, h.2.2.2⟩

end AwsMonitor
